import Mathlib

/-!
A verification development for the floweaver weaving engine: the data model
(flow records, datasets with dimension tables, selectors, partitions, bundles,
sankey definitions), the weave operation producing an output graph, and the
properties the documentation asserts about them (conservation, partition
totality, determinism, band ordering, waypoint synthesis, error taxonomy).

The engine itself is not shipped in this repository snapshot (only the
tutorial documentation is), so the operational definitions below are modelled
from the specification's component design, data model and algorithm sections.
-/

namespace Floweaver

/-- Decidable equality of fallible results, so that concrete weave outcomes
can be evaluated inside proofs. -/
instance instDecEqExcept {ε α : Type} [DecidableEq ε] [DecidableEq α] :
    DecidableEq (Except ε α) := fun a b =>
  match a, b with
  | Except.ok x, Except.ok y =>
    decidable_of_iff (x = y) ⟨fun h => by rw [h], fun h => by cases h; rfl⟩
  | Except.error x, Except.error y =>
    decidable_of_iff (x = y) ⟨fun h => by rw [h], fun h => by cases h; rfl⟩
  | Except.ok _, Except.error _ => isFalse (fun h => by cases h)
  | Except.error _, Except.ok _ => isFalse (fun h => by cases h)

/-- Modelled from the spec: a FlowRecord is one row of the flow fact table,
with source process id, target process id, material/type tag and numeric
value (values are embedded as integers; the engine only ever adds and
redistributes them). -/
structure FlowRecord where
  source : String
  target : String
  material : String
  value : Int
deriving DecidableEq

/-- Modelled from the spec: a Dataset owns the flow fact table plus an
optional process dimension table; each dimension row maps a process id to a
list of (attribute name, attribute value) pairs. -/
structure Dataset where
  flows : List FlowRecord
  dimProcess : List (String × List (String × String))
deriving DecidableEq

/-- Modelled from the spec: attribute dimensions with explicit scope
resolution (flow-scope vs process-scope prefixes) instead of ambient string
namespaces, per the design notes. `processAttr a` stands for the string form
"process.a", `sourceAttr a` for "source.a", `targetAttr a` for "target.a". -/
inductive Dim
  | process
  | processAttr (attr : String)
  | sourceAttr (attr : String)
  | targetAttr (attr : String)
  | material
deriving DecidableEq

/-- Modelled from the spec: a partition bucket is an explicit tagged variant
rather than a string-name convention: either a named explicit bucket, the
implicit catch-all "(Other)" bucket, or the single unpartitioned bucket of a
node with no partition set. -/
inductive Bucket
  | whole
  | named (label : String)
  | other
deriving DecidableEq

/-- Modelled from the spec: an internal graph node is one (group name,
partition bucket) pair, or a synthetic passthrough node uniquely named by
(bundle index, skipped band index). -/
inductive NodeId
  | real (name : String) (bucket : Bucket)
  | via (bundle : Nat) (band : Nat)
deriving DecidableEq

/-- An aggregated output link: from node, to node, material tag, summed value. -/
structure Link where
  source : NodeId
  target : NodeId
  material : String
  value : Int
deriving DecidableEq

/-- Modelled from the spec: a Partition is an ordered sequence of
(label, explicit value set) groups over one dimension. -/
structure Partition where
  dimension : Dim
  groups : List (String × List String)
deriving DecidableEq

/-- First-match-wins classification of a value against the ordered groups;
a value matching no group falls into the implicit "(Other)" bucket. -/
def classifyGroups (v : String) : List (String × List String) → Bucket
  | [] => Bucket.other
  | (l, vs) :: rest => if v ∈ vs then Bucket.named l else classifyGroups v rest

/-- Classify a value under a partition (total, first match wins). -/
def Partition.classify (p : Partition) (v : String) : Bucket :=
  classifyGroups v p.groups

/-- An entry of `Partition.Simple`: either a bare value string, denoting a
bucket labelled by that value and matching exactly that value, or a
(label, value list) group. -/
inductive SimpleEntry
  | val (v : String)
  | group (label : String) (vs : List String)
deriving DecidableEq

/-- Modelled from the spec and the tutorial: `Partition.Simple(dim, entries)`
builds a partition over one dimension; a bare value string `v` becomes the
group `(v, [v])` and a (label, values) pair becomes the group as given. -/
def Partition.Simple (dim : Dim) (entries : List SimpleEntry) : Partition :=
  { dimension := dim
    groups := entries.map (fun e =>
      match e with
      | SimpleEntry.val v => (v, [v])
      | SimpleEntry.group l vs => (l, vs)) }

/-- Modelled from the spec: a Selector is an explicit list of process
identifiers or an attribute predicate `attr == value` evaluated against the
joined process dimension attributes. -/
inductive Selector
  | explicitList (ids : List String)
  | query (attr : String) (value : String)
deriving DecidableEq

/-- Modelled from the spec: a ProcessGroup is a selector together with an
optional partition; a node whose partition is unset is woven as a single
unpartitioned bucket. -/
structure ProcessGroup where
  selection : Selector
  partition : Option Partition := none
deriving DecidableEq

/-- Modelled from the spec: a Bundle names a source group, a target group,
optional explicit waypoints, and an optional flow filter (attribute, value)
pair over the flow-table attributes. -/
structure Bundle where
  source : String
  target : String
  waypoints : List String := []
  flowQuery : Option (String × String) := none
deriving DecidableEq

/-- Modelled from the spec: a Diagram Definition composes named process
groups, bundles, and the left-to-right ordering (a sequence of bands, each a
sequence of node names). -/
structure SankeyDefinition where
  nodes : List (String × ProcessGroup)
  bundles : List Bundle
  ordering : List (List String)
deriving DecidableEq

/-- Assign a partition to one named node of a definition, leaving everything
else unchanged (the explicit-state rendering of the tutorial's
`nodes[name].partition = p` assignment). -/
def SankeyDefinition.setPartition (sdd : SankeyDefinition) (name : String)
    (p : Partition) : SankeyDefinition :=
  { sdd with
    nodes := sdd.nodes.map (fun pr =>
      if pr.1 = name then (pr.1, { pr.2 with partition := some p }) else pr) }

/-- Look up a process group by name in an ordered association list. -/
def lookupIn : List (String × ProcessGroup) → String → Option ProcessGroup
  | [], _ => none
  | (m, pg) :: rest, n => if n = m then some pg else lookupIn rest n

/-- Look up a named node of a definition. -/
def lookupNode (sdd : SankeyDefinition) (n : String) : Option ProcessGroup :=
  lookupIn sdd.nodes n

/-- Order-preserving removal of duplicates (first occurrence kept). -/
def dedupAux : List String → List String → List String
  | [], _ => []
  | x :: xs, seen =>
    if x ∈ seen then dedupAux xs seen else x :: dedupAux xs (x :: seen)

/-- Order-preserving removal of duplicates. -/
def dedupF (xs : List String) : List String := dedupAux xs []

/-- Look up an attribute of a process in the process dimension table. -/
def procAttr (d : Dataset) (pid attr : String) : Option String :=
  match d.dimProcess.find? (fun r => r.1 = pid) with
  | none => none
  | some r =>
    match r.2.find? (fun kv => kv.1 = attr) with
    | none => none
    | some kv => some kv.2

/-- Whether an attribute name occurs as a column of the joined process
dimension table. -/
def hasDimColumn (d : Dataset) (attr : String) : Bool :=
  d.dimProcess.any (fun r => r.2.any (fun kv => kv.1 = attr))

/-- Every process identifier appearing in the dataset's flow records, in
order of first appearance. -/
def processIds (d : Dataset) : List String :=
  dedupF (d.flows.flatMap (fun f => [f.source, f.target]))

/-- Modelled from the spec: selector resolution; explicit lists are returned
verbatim with duplicates removed, predicates are evaluated against every
process identifier appearing in the flow records using the process dimension
table for attribute lookup. -/
def resolveSelector (d : Dataset) : Selector → List String
  | Selector.explicitList ids => dedupF ids
  | Selector.query attr value =>
    (processIds d).filter (fun pid => procAttr d pid attr = some value)

/-- The set of process identifiers a named node of the definition denotes. -/
def resolvedOf (sdd : SankeyDefinition) (d : Dataset) (name : String) : List String :=
  match lookupNode sdd name with
  | some pg => resolveSelector d pg.selection
  | none => []

/-- Band index of a node name in the ordering (position of the first band
containing it). -/
def bandOfAux (i : Nat) : List (List String) → String → Option Nat
  | [], _ => none
  | band :: rest, n => if n ∈ band then some i else bandOfAux (i + 1) rest n

/-- Band index of a node name in the ordering. -/
def bandOf (ord : List (List String)) (n : String) : Option Nat :=
  bandOfAux 0 ord n

/-- An element of a resolved bundle path: a real named node or a synthetic
passthrough node tagged with the bundle index and the band it sits in. -/
inductive PathElem
  | real (name : String)
  | via (bundle : Nat) (band : Nat)
deriving DecidableEq

/-- A run of `n` synthetic passthrough nodes for bundle `idx`, sitting in
consecutive bands `k, k + 1, …, k + n - 1`. -/
def viaSeq (idx k : Nat) : Nat → List (PathElem × Nat)
  | 0 => []
  | n + 1 => (PathElem.via idx k, k) :: viaSeq idx (k + 1) n

/-- Modelled from the spec: the tail of a synthesized bundle path, one
passthrough node per band from `k` up to (but excluding) the target band `t`,
followed by the real target node. -/
def pathTail (idx : Nat) (tgt : String) (t : Nat) (k : Nat) : List (PathElem × Nat) :=
  viaSeq idx k (t - k) ++ [(PathElem.real tgt, t)]

/-- Pair each name of an explicit waypoint path with its band index, failing
on a name that appears in no band of the ordering. -/
def realPath (ord : List (List String)) : List String → Except String (List (PathElem × Nat))
  | [] => Except.ok []
  | n :: ns =>
    match bandOf ord n with
    | none => Except.error ("unknown node in ordering: " ++ n)
    | some b =>
      match realPath ord ns with
      | Except.error e => Except.error e
      | Except.ok rest => Except.ok ((PathElem.real n, b) :: rest)

/-- Whether consecutive band indices along a path strictly increase. -/
def strictlyIncreasing : List (PathElem × Nat) → Bool
  | [] => true
  | [_] => true
  | x :: y :: rest => decide (x.2 < y.2) && strictlyIncreasing (y :: rest)

/-- Modelled from the spec: bundle path resolution. With explicit waypoints
the path is exactly source, waypoints, target, and each successive band must
be strictly after the previous one (otherwise a routing conflict). With no
waypoints the source band must be strictly before the target band and one
synthetic passthrough node is inserted per skipped band. -/
def bundlePath (ord : List (List String)) (idx : Nat) (b : Bundle) :
    Except String (List (PathElem × Nat)) :=
  match b.waypoints with
  | [] =>
    match bandOf ord b.source, bandOf ord b.target with
    | some s, some t =>
      if s < t then Except.ok ((PathElem.real b.source, s) :: pathTail idx b.target t (s + 1))
      else Except.error "routing conflict: target band not after source band"
    | _, _ => Except.error "unknown node in ordering"
  | _ :: _ =>
    match realPath ord (b.source :: (b.waypoints ++ [b.target])) with
    | Except.error e => Except.error e
    | Except.ok p =>
      if strictlyIncreasing p then Except.ok p
      else Except.error "routing conflict: target band not after source band"

/-- The resolved path of the bundle at a given index of the definition
(empty when resolution fails; the weave checks rule that out up front). -/
def pathOf (sdd : SankeyDefinition) (idx : Nat) : List (PathElem × Nat) :=
  match sdd.bundles.get? idx with
  | none => []
  | some b =>
    match bundlePath sdd.ordering idx b with
    | Except.error _ => []
    | Except.ok p => p

/-- Pair each list element with its index, starting from `i`. -/
def withIdx (i : Nat) : List Bundle → List (Nat × Bundle)
  | [] => []
  | b :: bs => (i, b) :: withIdx (i + 1) bs

/-- The position a node occupies on a bundle path: the source end, the
target end, or an intermediate waypoint. -/
inductive Role
  | src
  | tgt
  | mid
deriving DecidableEq

/-- Modelled from the spec: the scalar a partition dimension denotes for one
flow record at one path position, with explicit scope resolution. Process
scoped dimensions resolve to the endpoint the node occupies and denote
nothing at an intermediate waypoint. -/
def classifyValue (d : Dataset) (f : FlowRecord) (role : Role) : Dim → Option String
  | Dim.process =>
    match role with
    | Role.src => some f.source
    | Role.tgt => some f.target
    | Role.mid => none
  | Dim.processAttr a =>
    match role with
    | Role.src => procAttr d f.source a
    | Role.tgt => procAttr d f.target a
    | Role.mid => none
  | Dim.sourceAttr a => procAttr d f.source a
  | Dim.targetAttr a => procAttr d f.target a
  | Dim.material => some f.material

/-- The bucket a partition assigns to a flow record at one path position; a
value the dimension does not denote falls into the "(Other)" bucket. -/
def bucketOfPartition (d : Dataset) (f : FlowRecord) (role : Role) (p : Partition) : Bucket :=
  match classifyValue d f role p.dimension with
  | none => Bucket.other
  | some v => p.classify v

/-- The bucket a named node assigns to a flow record: the single
unpartitioned bucket when the node has no partition set, otherwise the
partition's classification. -/
def bucketFor (sdd : SankeyDefinition) (d : Dataset) (f : FlowRecord)
    (role : Role) (name : String) : Bucket :=
  match lookupNode sdd name with
  | none => Bucket.whole
  | some pg =>
    match pg.partition with
    | none => Bucket.whole
    | some p => bucketOfPartition d f role p

/-- The internal graph node one path element denotes for one flow record. -/
def nodeIdFor (sdd : SankeyDefinition) (d : Dataset) (f : FlowRecord)
    (role : Role) (pr : PathElem × Nat) : NodeId :=
  match pr.1 with
  | PathElem.via i k => NodeId.via i k
  | PathElem.real n => NodeId.real n (bucketFor sdd d f role n)

/-- Internal nodes for the non-initial positions of a path (the last element
plays the target role, the others are intermediate). -/
def midNodes (sdd : SankeyDefinition) (d : Dataset) (f : FlowRecord) :
    List (PathElem × Nat) → List NodeId
  | [] => []
  | [last] => [nodeIdFor sdd d f Role.tgt last]
  | x :: y :: rest => nodeIdFor sdd d f Role.mid x :: midNodes sdd d f (y :: rest)

/-- The sequence of internal nodes a flow record traverses along a path. -/
def pathNodeIds (sdd : SankeyDefinition) (d : Dataset) (f : FlowRecord) :
    List (PathElem × Nat) → List NodeId
  | [] => []
  | first :: rest => nodeIdFor sdd d f Role.src first :: midNodes sdd d f rest

/-- Modelled from the spec: whether a flow record is covered by a bundle:
its source must lie in the bundle's resolved source set, its target in the
resolved target set, and the optional flow filter must accept it. -/
def bundleMatches (sdd : SankeyDefinition) (d : Dataset) (f : FlowRecord) (b : Bundle) : Bool :=
  decide (f.source ∈ resolvedOf sdd d b.source) &&
  decide (f.target ∈ resolvedOf sdd d b.target) &&
  (match b.flowQuery with
   | none => true
   | some qa => decide (f.material = qa.2))

/-- Index of the first bundle covering a flow record (first-declared wins). -/
def matchBundleAux (sdd : SankeyDefinition) (d : Dataset) (f : FlowRecord) :
    List Bundle → Option Nat
  | [] => none
  | b :: rest =>
    if bundleMatches sdd d f b then some 0
    else (matchBundleAux sdd d f rest).map (· + 1)

/-- Index of the first bundle covering a flow record, in declaration order. -/
def matchBundle (sdd : SankeyDefinition) (d : Dataset) (f : FlowRecord) : Option Nat :=
  matchBundleAux sdd d f sdd.bundles

/-- Accumulate a value into the link table, keyed by (from, to, material);
an existing key is summed into, a new key is appended. -/
def addLink : List Link → NodeId → NodeId → String → Int → List Link
  | [], s, t, m, v => [⟨s, t, m, v⟩]
  | l :: ls, s, t, m, v =>
    if l.source = s ∧ l.target = t ∧ l.material = m then
      ⟨l.source, l.target, l.material, l.value + v⟩ :: ls
    else l :: addLink ls s t m v

/-- Accumulate one hop link per consecutive pair of path nodes. -/
def addPath (links : List Link) : List NodeId → String → Int → List Link
  | a :: b :: rest, m, v => addPath (addLink links a b m v) (b :: rest) m v
  | _, _, _ => links

/-- Count of path positions classified into the "(Other)" bucket. -/
def countOther (ns : List NodeId) : Nat :=
  ns.countP (fun n =>
    match n with
    | NodeId.real _ Bucket.other => true
    | _ => false)

/-- State threaded through routing: the link table under construction and
the coverage diagnostics counters. -/
structure RouteState where
  links : List Link
  unmatchedCount : Nat
  unmatchedValue : Int
  otherCount : Nat
deriving DecidableEq

/-- Modelled from the spec: route one flow record. An unmatched record is
dropped and counted in the diagnostics; a matched record's value is
accumulated into one link per hop of its bundle's resolved path. -/
def routeRecord (sdd : SankeyDefinition) (d : Dataset) (st : RouteState)
    (f : FlowRecord) : RouteState :=
  match matchBundle sdd d f with
  | none =>
    { st with
      unmatchedCount := st.unmatchedCount + 1
      unmatchedValue := st.unmatchedValue + f.value }
  | some idx =>
    let ns := pathNodeIds sdd d f (pathOf sdd idx)
    { st with
      links := addPath st.links ns f.material f.value
      otherCount := st.otherCount + countOther ns }

/-- Route every flow record of a list, in dataset order. -/
def routeAll (sdd : SankeyDefinition) (d : Dataset) (flows : List FlowRecord)
    (st : RouteState) : RouteState :=
  flows.foldl (routeRecord sdd d) st

/-- The output nodes one named group expands to: its explicit partition
buckets followed by the implicit "(Other)" bucket, or the single
unpartitioned bucket when no partition is set. -/
def nodeBuckets (name : String) (pg : ProcessGroup) : List NodeId :=
  match pg.partition with
  | none => [NodeId.real name Bucket.whole]
  | some p =>
    p.groups.map (fun g => NodeId.real name (Bucket.named g.1)) ++
      [NodeId.real name Bucket.other]

/-- Output nodes in band order, stacked within each band in declared order. -/
def orderingNodes (sdd : SankeyDefinition) : List NodeId :=
  sdd.ordering.flatMap (fun band =>
    band.flatMap (fun n =>
      match lookupNode sdd n with
      | none => []
      | some pg => nodeBuckets n pg))

/-- Synthetic passthrough nodes appearing on some bundle's resolved path. -/
def viaNodes (sdd : SankeyDefinition) : List NodeId :=
  (withIdx 0 sdd.bundles).flatMap (fun pr =>
    (pathOf sdd pr.1).filterMap (fun e =>
      match e.1 with
      | PathElem.via i k => some (NodeId.via i k)
      | PathElem.real _ => none))

/-- Names of nodes whose selector resolves to the empty set (a warning-level
coverage condition, never fatal). -/
def emptySelectors (sdd : SankeyDefinition) (d : Dataset) : List String :=
  sdd.nodes.filterMap (fun pr =>
    if resolvedOf sdd d pr.1 = [] then some pr.1 else none)

/-- The diagnostics record returned alongside every successful weave. -/
structure Diagnostics where
  unmatchedCount : Nat
  unmatchedValue : Int
  emptySelectorWarnings : List String
  otherCount : Nat
deriving DecidableEq

/-- The fully resolved, aggregated output graph. -/
structure OutputGraph where
  nodes : List NodeId
  links : List Link
  diagnostics : Diagnostics
deriving DecidableEq

/-- Whether a string occurs earlier in a list (duplicate detection). -/
def hasDupB : List String → Bool
  | [] => false
  | x :: xs => xs.any (fun y => x = y) || hasDupB xs

/-- Configuration check: a bundle referencing a node name absent from the
node mapping. -/
def unknownBundleNames (sdd : SankeyDefinition) : Bool :=
  sdd.bundles.any (fun b =>
    (b.source :: (b.waypoints ++ [b.target])).any (fun n => (lookupNode sdd n).isNone))

/-- Configuration check: the ordering referencing a node name absent from
the node mapping. -/
def unknownOrderingNames (sdd : SankeyDefinition) : Bool :=
  sdd.ordering.any (fun band => band.any (fun n => (lookupNode sdd n).isNone))

/-- Configuration check: a node whose partition declares a duplicate bucket
label. -/
def dupPartitionLabels (sdd : SankeyDefinition) : Bool :=
  sdd.nodes.any (fun pr =>
    match pr.2.partition with
    | none => false
    | some p => hasDupB (p.groups.map (fun g => g.1)))

/-- Configuration check: a bundle whose path conflicts with the declared
ordering or references a node outside it. -/
def badPaths (sdd : SankeyDefinition) : Bool :=
  (withIdx 0 sdd.bundles).any (fun pr =>
    match bundlePath sdd.ordering pr.1 pr.2 with
    | Except.ok _ => false
    | Except.error _ => true)

/-- Data check: a selector predicate referencing an attribute absent from
the joined process dimension table. -/
def missingSelectorColumns (sdd : SankeyDefinition) (d : Dataset) : Bool :=
  sdd.nodes.any (fun pr =>
    match pr.2.selection with
    | Selector.explicitList _ => false
    | Selector.query a _ => !(hasDimColumn d a))

/-- Data check: a bundle flow filter referencing an attribute absent from
the flow-table namespace. -/
def badFlowQueries (sdd : SankeyDefinition) : Bool :=
  sdd.bundles.any (fun b =>
    match b.flowQuery with
    | none => false
    | some qa => !(decide (qa.1 = "material") || decide (qa.1 = "type")))

/-- Modelled from the spec: the up-front configuration and data checks; the
first failing check aborts the weave with a descriptive condition. -/
def checkConfig (sdd : SankeyDefinition) (d : Dataset) : Option String :=
  if unknownBundleNames sdd then
    some "configuration error: unknown node name referenced by a bundle"
  else if unknownOrderingNames sdd then
    some "configuration error: unknown node name in the ordering"
  else if dupPartitionLabels sdd then
    some "configuration error: duplicate partition bucket labels"
  else if badPaths sdd then
    some "configuration error: bundle path conflicts with the declared ordering"
  else if missingSelectorColumns sdd d then
    some "data error: selector predicate references a missing attribute"
  else if badFlowQueries sdd then
    some "data error: flow filter references a missing attribute"
  else none

/-- Modelled from the spec: graph assembly after the checks have passed: a
single pass over the flow records accumulating links and diagnostics, plus
the ordered node list. Assembly itself never fails. -/
def assemble (sdd : SankeyDefinition) (d : Dataset) : OutputGraph :=
  let st := routeAll sdd d d.flows ⟨[], 0, 0, 0⟩
  { nodes := orderingNodes sdd ++ viaNodes sdd
    links := st.links
    diagnostics :=
      { unmatchedCount := st.unmatchedCount
        unmatchedValue := st.unmatchedValue
        emptySelectorWarnings := emptySelectors sdd d
        otherCount := st.otherCount } }

/-- Modelled from the spec: the weave operation. Configuration and data
errors abort the call with a descriptive condition; otherwise the output
graph is assembled, with coverage warnings accumulated in its diagnostics. -/
def weave (sdd : SankeyDefinition) (d : Dataset) : Except String OutputGraph :=
  match checkConfig sdd d with
  | some e => Except.error e
  | none => Except.ok (assemble sdd d)

/-- Modelled from the spec: `dataset.partition(dim)` returns a partition
whose buckets are the distinct values actually occurring in scope for the
dimension, ordered by first occurrence. Process-scoped lookups must be
written with a source/target prefix; the bare process prefix takes the
flow-table lookup path, where no such column is joined, and fails with a
missing-attribute condition (the documented asymmetry). -/
def Dataset.partition (d : Dataset) : Dim → Except String Partition
  | Dim.sourceAttr a =>
    if hasDimColumn d a then
      Except.ok
        { dimension := Dim.sourceAttr a
          groups := (dedupF (d.flows.filterMap (fun f => procAttr d f.source a))).map
            (fun v => (v, [v])) }
    else Except.error ("missing attribute: " ++ a)
  | Dim.targetAttr a =>
    if hasDimColumn d a then
      Except.ok
        { dimension := Dim.targetAttr a
          groups := (dedupF (d.flows.filterMap (fun f => procAttr d f.target a))).map
            (fun v => (v, [v])) }
    else Except.error ("missing attribute: " ++ a)
  | Dim.processAttr a => Except.error ("missing attribute: process." ++ a)
  | Dim.process =>
    Except.ok
      { dimension := Dim.process
        groups := (processIds d).map (fun v => (v, [v])) }
  | Dim.material =>
    Except.ok
      { dimension := Dim.material
        groups := (dedupF (d.flows.map (fun f => f.material))).map (fun v => (v, [v])) }

/-- Sum of the values of a link table. -/
def sumLinks : List Link → Int
  | [] => 0
  | l :: ls => l.value + sumLinks ls

/-- Sum of the values of a list of flow records. -/
def sumVals : List FlowRecord → Int
  | [] => 0
  | f :: fs => f.value + sumVals fs

/-- Total input value of a dataset. -/
def totalInput (d : Dataset) : Int := sumVals d.flows

/-- Value contributed to the link table by one flow record: its value once
per hop of its bundle's path, zero when unmatched. -/
def hopsValue (sdd : SankeyDefinition) (d : Dataset) (f : FlowRecord) : Int :=
  match matchBundle sdd d f with
  | none => 0
  | some idx => ((pathOf sdd idx).length - 1 : Nat) * f.value

/-- Sum of per-record hop contributions over a list of flow records. -/
def hopsTotal (sdd : SankeyDefinition) (d : Dataset) : List FlowRecord → Int
  | [] => 0
  | f :: fs => hopsValue sdd d f + hopsTotal sdd d fs

/-- Sum of the values of the records matched by no bundle. -/
def unmatchedTotal (sdd : SankeyDefinition) (d : Dataset) : List FlowRecord → Int
  | [] => 0
  | f :: fs =>
    (if matchBundle sdd d f = none then f.value else 0) + unmatchedTotal sdd d fs

/-- The band an output node sits in: the ordering band of a real node's
group name, the recorded band of a synthetic passthrough node. -/
def nodeBand (ord : List (List String)) : NodeId → Option Nat
  | NodeId.real n _ => bandOf ord n
  | NodeId.via _ k => some k

/-- The synthetic passthrough identity of a path element, if any. -/
def viaOf (pr : PathElem × Nat) : Option (Nat × Nat) :=
  match pr.1 with
  | PathElem.via i k => some (i, k)
  | PathElem.real _ => none

/-- The bands a bundle from band `s` to band `t` skips over. -/
def skippedBands (s t : Nat) : List Nat :=
  (List.range (t - s - 1)).map (fun j => s + 1 + j)

/-- Agreement of a path element with its recorded band: a real node's group
sits in that band of the ordering, a passthrough node stores that band. -/
def elemBandAgrees (ord : List (List String)) (pr : PathElem × Nat) : Prop :=
  match pr.1 with
  | PathElem.real n => bandOf ord n = some pr.2
  | PathElem.via _ k => k = pr.2

/-- A link pointing strictly left to right: the band of its originating node
is strictly less than the band of its destination node. -/
def LinkOrdered (ord : List (List String)) (l : Link) : Prop :=
  ∃ a b, nodeBand ord l.source = some a ∧ nodeBand ord l.target = some b ∧ a < b

/-- The flow fact table of the tutorial's example scenario. -/
def exFlows : List FlowRecord :=
  [⟨"farm1", "Fred", "fruit", 10⟩, ⟨"farm2", "Susan", "fruit", 5⟩]

/-- The process dimension table of the tutorial's example scenario. -/
def exDims : List (String × List (String × String)) :=
  [("farm1", [("type", "farm"), ("organic", "yes")]),
   ("farm2", [("type", "farm"), ("organic", "no")]),
   ("Fred", [("type", "customer"), ("sex", "Men")]),
   ("Susan", [("type", "customer"), ("sex", "Women")])]

/-- The tutorial's example dataset: flows joined with the process table. -/
def exData : Dataset := ⟨exFlows, exDims⟩

/-- The customers-by-gender partition built from the dimension table column. -/
def byGender : Partition :=
  Partition.Simple (Dim.processAttr "sex") [SimpleEntry.val "Men", SimpleEntry.val "Women"]

/-- The tutorial's node mapping: farms and customers picked out by type. -/
def exNodes : List (String × ProcessGroup) :=
  [("farms", ⟨Selector.query "type" "farm", none⟩),
   ("customers", ⟨Selector.query "type" "customer", none⟩)]

/-- The tutorial's diagram definition: farms on the left, customers on the
right, one bundle between them, no partitions set yet. -/
def exSdd : SankeyDefinition :=
  ⟨exNodes, [⟨"farms", "customers", [], none⟩], [["farms"], ["customers"]]⟩

/-- The tutorial's definition after assigning the gender partition to the
customers node. -/
def exSddGender : SankeyDefinition := exSdd.setPartition "customers" byGender

/-- Whether an output node is a bucket of the named group. -/
def isNodeOf (name : String) : NodeId → Bool
  | NodeId.real m _ => decide (m = name)
  | NodeId.via _ _ => false

/-- A two-node definition whose single bundle spans from band 0 to band 2,
so that a passthrough node is synthesized in the skipped middle band. -/
def cexSdd : SankeyDefinition :=
  ⟨[("A", ⟨Selector.explicitList ["a"], none⟩), ("B", ⟨Selector.explicitList ["b"], none⟩)],
   [⟨"A", "B", [], none⟩],
   [["A"], [], ["B"]]⟩

/-- A one-record dataset routed across the skipped band of `cexSdd`. -/
def cexData : Dataset := ⟨[⟨"a", "b", "m", 10⟩], []⟩

/-- The definition of `cexSdd` with its only bundle reversed: the bundle
runs from band 2 back to band 0 with no waypoints. -/
def cexRevSdd : SankeyDefinition :=
  ⟨[("A", ⟨Selector.explicitList ["a"], none⟩), ("B", ⟨Selector.explicitList ["b"], none⟩)],
   [⟨"B", "A", [], none⟩],
   [["A"], [], ["B"]]⟩

/-- The explicit-list rendering of the customers-by-gender partition from
the quickstart tutorial. -/
def byGenderList : Partition :=
  Partition.Simple Dim.process
    [SimpleEntry.group "Men" ["Fred", "James"], SimpleEntry.group "Women" ["Susan", "Mary"]]

/-- A process dimension table whose sex column holds exactly the quickstart
mapping: Fred and James are Men, Susan and Mary are Women. -/
def sexListMatch (d : Dataset) (pid : String) : Prop :=
  (procAttr d pid "sex" = some "Men" ↔ (pid = "Fred" ∨ pid = "James"))
  ∧ (procAttr d pid "sex" = some "Women" ↔ (pid = "Susan" ∨ pid = "Mary"))

/-- The quickstart sex mapping is decidable for any concrete dataset. -/
instance (d : Dataset) (pid : String) : Decidable (sexListMatch d pid) :=
  inferInstanceAs (Decidable
    ((procAttr d pid "sex" = some "Men" ↔ (pid = "Fred" ∨ pid = "James"))
      ∧ (procAttr d pid "sex" = some "Women" ↔ (pid = "Susan" ∨ pid = "Mary"))))

/-- The quickstart dataset with all four customers, used to witness the
partition-shorthand equivalence. -/
def c9Data : Dataset :=
  ⟨[⟨"farm1", "Fred", "fruit", 10⟩, ⟨"farm1", "James", "fruit", 3⟩,
    ⟨"farm2", "Susan", "fruit", 5⟩, ⟨"farm2", "Mary", "fruit", 2⟩],
   [("farm1", [("type", "farm"), ("organic", "yes")]),
    ("farm2", [("type", "farm"), ("organic", "no")]),
    ("Fred", [("type", "customer"), ("sex", "Men")]),
    ("James", [("type", "customer"), ("sex", "Men")]),
    ("Susan", [("type", "customer"), ("sex", "Women")]),
    ("Mary", [("type", "customer"), ("sex", "Women")])]⟩

/-- The conjunction of conditions under which a weave succeeds: no unknown
node names in bundles or the ordering, no duplicate partition bucket labels,
every bundle path compatible with the declared ordering, and no predicate
referencing an absent column. Coverage conditions (empty selectors,
unmatched records, values in the "(Other)" bucket) do not appear here. -/
def WellFormed (sdd : SankeyDefinition) (d : Dataset) : Prop :=
  (∀ b ∈ sdd.bundles, ∀ n ∈ b.source :: (b.waypoints ++ [b.target]),
    lookupNode sdd n ≠ none)
  ∧ (∀ band ∈ sdd.ordering, ∀ n ∈ band, lookupNode sdd n ≠ none)
  ∧ (∀ pr ∈ sdd.nodes, ∀ p, pr.2.partition = some p →
      (p.groups.map (fun g => g.1)).Nodup)
  ∧ (∀ pr ∈ withIdx 0 sdd.bundles, ∃ path, bundlePath sdd.ordering pr.1 pr.2 = Except.ok path)
  ∧ (∀ pr ∈ sdd.nodes, ∀ a v, pr.2.selection = Selector.query a v → hasDimColumn d a = true)
  ∧ (∀ b ∈ sdd.bundles, ∀ qa, b.flowQuery = some qa → qa.1 = "material" ∨ qa.1 = "type")

/-- Accumulating one value into the link table adds exactly that value to
the table's total. -/
theorem sumLinks_addLink (L : List Link) (s t : NodeId) (m : String) (v : Int) :
    sumLinks (addLink L s t m v) = sumLinks L + v := by
  induction L with
  | nil => simp [addLink, sumLinks]
  | cons l ls ih =>
    by_cases h : l.source = s ∧ l.target = t ∧ l.material = m
    · simp only [addLink, if_pos h, sumLinks]
      ring
    · simp only [addLink, if_neg h, sumLinks, ih]
      ring

/-- Routing one record along a node sequence adds its value once per hop. -/
theorem sumLinks_addPath (ns : List NodeId) (L : List Link) (m : String) (v : Int) :
    sumLinks (addPath L ns m v) = sumLinks L + ((ns.length - 1 : Nat) : Int) * v := by
  induction ns generalizing L with
  | nil => simp [addPath]
  | cons a rest ih =>
    cases rest with
    | nil => simp [addPath]
    | cons b rest2 =>
      rw [addPath, ih, sumLinks_addLink]
      simp only [List.length_cons, Nat.succ_sub_one]
      push_cast
      ring

/-- The node sequence of the non-initial path positions has the same length
as that portion of the path. -/
theorem midNodes_length (sdd : SankeyDefinition) (d : Dataset) (f : FlowRecord) :
    ∀ l : List (PathElem × Nat), (midNodes sdd d f l).length = l.length := by
  intro l
  induction l with
  | nil => rfl
  | cons x rest ih =>
    cases rest with
    | nil => rfl
    | cons y rest2 => simp [midNodes, ih]

/-- The node sequence of a path has the same length as the path. -/
theorem pathNodeIds_length (sdd : SankeyDefinition) (d : Dataset) (f : FlowRecord)
    (l : List (PathElem × Nat)) : (pathNodeIds sdd d f l).length = l.length := by
  cases l with
  | nil => rfl
  | cons first rest => simp [pathNodeIds, midNodes_length]

/-- Routing a list of records adds the per-hop contributions to the link
total and the unmatched values to the unmatched total. -/
theorem routeAll_sums (sdd : SankeyDefinition) (d : Dataset) :
    ∀ (flows : List FlowRecord) (st : RouteState),
      sumLinks (routeAll sdd d flows st).links = sumLinks st.links + hopsTotal sdd d flows
      ∧ (routeAll sdd d flows st).unmatchedValue =
          st.unmatchedValue + unmatchedTotal sdd d flows := by
  intro flows
  induction flows with
  | nil => intro st; simp [routeAll, hopsTotal, unmatchedTotal]
  | cons f fs ih =>
    intro st
    have hstep : routeAll sdd d (f :: fs) st = routeAll sdd d fs (routeRecord sdd d st f) := rfl
    rw [hstep]
    obtain ⟨ihl, ihu⟩ := ih (routeRecord sdd d st f)
    rw [ihl, ihu]
    cases h : matchBundle sdd d f with
    | none =>
      simp only [routeRecord, h, hopsTotal, unmatchedTotal, hopsValue, if_pos]
      constructor <;> ring
    | some idx =>
      simp only [routeRecord, h, hopsTotal, unmatchedTotal, hopsValue]
      rw [sumLinks_addPath, pathNodeIds_length]
      simp only [if_neg (by simp : ¬(some idx = none))]
      constructor <;> ring

/-- When every matched record's path has exactly two nodes, the per-hop
contributions and the unmatched values together account for the whole input. -/
theorem hopsTotal_adjacent (sdd : SankeyDefinition) (d : Dataset) :
    ∀ flows : List FlowRecord,
      (∀ f ∈ flows, ∀ idx, matchBundle sdd d f = some idx → (pathOf sdd idx).length = 2) →
      hopsTotal sdd d flows + unmatchedTotal sdd d flows = sumVals flows := by
  intro flows
  induction flows with
  | nil => intro _; simp [hopsTotal, unmatchedTotal, sumVals]
  | cons f fs ih =>
    intro h
    have hf := h f (by simp)
    have hfs := ih (fun f' hf' idx hidx => h f' (by simp [hf']) idx hidx)
    simp only [hopsTotal, unmatchedTotal, sumVals]
    cases hm : matchBundle sdd d f with
    | none =>
      simp only [hopsValue, hm]
      simp only [if_pos]
      norm_num
      linarith
    | some idx =>
      have hlen := hf idx hm
      simp only [hopsValue, hm, hlen, if_neg (by simp : ¬(some idx = none))]
      norm_num
      linarith

/-- C1 (amended). Each routed FlowRecord contributes its value once per hop
of its bundle's resolved path, so the sum of Output Link values equals the
sum over records of (path length - 1) x value; the unmatched diagnostic is
the sum of the unmatched records' values; and whenever every matched
record's path has exactly two nodes (no explicit or synthesized waypoints),
the link total equals the input total minus the unmatched total. -/
theorem conservation_per_hop (sdd : SankeyDefinition) (d : Dataset) (g : OutputGraph)
    (h : weave sdd d = Except.ok g) :
    sumLinks g.links = hopsTotal sdd d d.flows
    ∧ g.diagnostics.unmatchedValue = unmatchedTotal sdd d d.flows
    ∧ ((∀ f ∈ d.flows, ∀ idx, matchBundle sdd d f = some idx →
          (pathOf sdd idx).length = 2) →
        sumLinks g.links = totalInput d - g.diagnostics.unmatchedValue) := by
  have hg : g = assemble sdd d := by
    unfold weave at h
    cases hc : checkConfig sdd d with
    | some e => rw [hc] at h; cases h
    | none => rw [hc] at h; cases h; rfl
  subst hg
  obtain ⟨hl, hu⟩ := routeAll_sums sdd d d.flows ⟨[], 0, 0, 0⟩
  have hl' : sumLinks (assemble sdd d).links = hopsTotal sdd d d.flows := by
    simpa [sumLinks] using hl
  have hu' : (assemble sdd d).diagnostics.unmatchedValue = unmatchedTotal sdd d d.flows := by
    simpa using hu
  refine ⟨hl', hu', fun hadj => ?_⟩
  have := hopsTotal_adjacent sdd d d.flows hadj
  rw [hl', hu', totalInput]
  omega

/-- Witness for C1 (amended): on the tutorial scenario every path has two
nodes, and the link total 15 equals input 15 minus unmatched 0. -/
theorem conservation_per_hop_witness :
    weave exSddGender exData = Except.ok (assemble exSddGender exData)
    ∧ sumLinks (assemble exSddGender exData).links = hopsTotal exSddGender exData exData.flows
    ∧ sumLinks (assemble exSddGender exData).links =
        totalInput exData - (assemble exSddGender exData).diagnostics.unmatchedValue := by
  have h : weave exSddGender exData = Except.ok (assemble exSddGender exData) := by decide
  have hm := conservation_per_hop exSddGender exData (assemble exSddGender exData) h
  refine ⟨h, hm.1, hm.2.2 ?_⟩
  intro f hf idx hidx
  have hf' : f ∈ exData.flows := hf
  have : f = ⟨"farm1", "Fred", "fruit", 10⟩ ∨ f = ⟨"farm2", "Susan", "fruit", 5⟩ := by
    simpa [exData, exFlows] using hf'
  rcases this with rfl | rfl
  · have h0 : matchBundle exSddGender exData ⟨"farm1", "Fred", "fruit", 10⟩ = some 0 := by decide
    rw [h0] at hidx
    cases hidx
    decide
  · have h0 : matchBundle exSddGender exData ⟨"farm2", "Susan", "fruit", 5⟩ = some 0 := by decide
    rw [h0] at hidx
    cases hidx
    decide

/-- C1 counterexample: for the bundle spanning from band 0 to band 2, the
one routed record of value 10 produces two links of value 10 each, so the
link total 20 differs from input minus unmatched, 10. -/
theorem conservation_counterexample :
    (weave cexSdd cexData).map
        (fun g => (sumLinks g.links, totalInput cexData - g.diagnostics.unmatchedValue)) =
      Except.ok ((20 : Int), (10 : Int))
    ∧ (20 : Int) ≠ (10 : Int) :=
  ⟨by decide, by decide⟩

/-- A value classifies to "(Other)" exactly when it matches no group. -/
theorem classifyGroups_other (v : String) :
    ∀ gs, classifyGroups v gs = Bucket.other ↔ ∀ g ∈ gs, v ∉ g.2 := by
  intro gs
  induction gs with
  | nil => simp [classifyGroups]
  | cons g0 rest ih =>
    obtain ⟨l, vs⟩ := g0
    by_cases h : v ∈ vs
    · constructor
      · intro h1
        exact absurd h1 (by simp [classifyGroups, h])
      · intro h2
        exact absurd h (h2 (l, vs) (by simp))
    · simp only [classifyGroups, if_neg h, ih]
      constructor
      · intro h1 g' hg'
        rcases List.mem_cons.1 hg' with rfl | hm
        · exact h
        · exact h1 g' hm
      · intro h2 g' hg'
        exact h2 g' (List.mem_cons_of_mem _ hg')

/-- A value classifies to a named bucket exactly when that bucket's group is
the first group matching it: no earlier group matches. -/
theorem classifyGroups_named (v l : String) :
    ∀ gs, classifyGroups v gs = Bucket.named l ↔
      ∃ pre g post, gs = pre ++ g :: post ∧ g.1 = l ∧ v ∈ g.2 ∧ ∀ g' ∈ pre, v ∉ g'.2 := by
  intro gs
  induction gs with
  | nil =>
    simp only [classifyGroups]
    constructor
    · intro h1
      cases h1
    · rintro ⟨pre, g, post, hgs, -⟩
      cases pre <;> simp at hgs
  | cons g0 rest ih =>
    obtain ⟨l0, vs0⟩ := g0
    by_cases h : v ∈ vs0
    · simp only [classifyGroups, if_pos h]
      constructor
      · intro h1
        have hl : l0 = l := by
          cases h1
          rfl
        exact ⟨[], (l0, vs0), rest, rfl, hl, h, by simp⟩
      · rintro ⟨pre, g, post, hgs, hgl, hgv, hpre⟩
        cases pre with
        | nil =>
          simp only [List.nil_append] at hgs
          have hg : g = (l0, vs0) := by
            have := congrArg (fun xs => xs.head?) hgs.symm
            simpa using this
          have hll : (l0, vs0).1 = l := by
            rw [← hg]
            exact hgl
          simp only [← hll]
        | cons p0 pre' =>
          have hp0 : p0 = (l0, vs0) := by
            simpa using congrArg (fun xs => xs.head?) hgs.symm
          have hv : v ∉ vs0 := by
            have := hpre p0 (by simp)
            rw [hp0] at this
            exact this
          exact absurd h hv
    · simp only [classifyGroups, if_neg h, ih]
      constructor
      · rintro ⟨pre, g, post, hgs, hgl, hgv, hpre⟩
        refine ⟨(l0, vs0) :: pre, g, post, by rw [hgs]; rfl, hgl, hgv, ?_⟩
        rintro g' hg'
        rcases List.mem_cons.1 hg' with rfl | hm
        · exact h
        · exact hpre g' hm
      · rintro ⟨pre, g, post, hgs, hgl, hgv, hpre⟩
        cases pre with
        | nil =>
          simp only [List.nil_append] at hgs
          have hg : g = (l0, vs0) := by
            have := congrArg (fun xs => xs.head?) hgs.symm
            simpa using this
          rw [hg] at hgv
          exact absurd hgv h
        | cons p0 pre' =>
          have hrest : rest = pre' ++ g :: post := by
            have := congrArg (fun xs => xs.tail) hgs
            simpa using this
          exact ⟨pre', g, post, hrest, hgl, hgv,
            fun g' hg' => hpre g' (List.mem_cons_of_mem _ hg')⟩

/-- Classification always lands in an explicit group's bucket or "(Other)". -/
theorem classifyGroups_covers (v : String) :
    ∀ gs, classifyGroups v gs = Bucket.other
      ∨ ∃ g ∈ gs, classifyGroups v gs = Bucket.named g.1 := by
  intro gs
  induction gs with
  | nil => exact Or.inl rfl
  | cons g0 rest ih =>
    obtain ⟨l, vs⟩ := g0
    by_cases h : v ∈ vs
    · exact Or.inr ⟨(l, vs), by simp, by simp [classifyGroups, h]⟩
    · rcases ih with ho | ⟨g, hg, hn⟩
      · exact Or.inl (by simp [classifyGroups, h, ho])
      · exact Or.inr ⟨g, List.mem_cons_of_mem _ hg, by simp [classifyGroups, h, hn]⟩

/-- C2. Partition classification is total: every value receives exactly one
bucket; the bucket is named by the first group matching the value, in
declared order; a value matching no group receives the implicit "(Other)"
bucket; and every classification lands in an explicit bucket or "(Other)",
covering the whole value domain. -/
theorem classify_total (p : Partition) (v : String) :
    (p.classify v = Bucket.other ↔ ∀ g ∈ p.groups, v ∉ g.2)
    ∧ (∀ l, p.classify v = Bucket.named l ↔
        ∃ pre g post, p.groups = pre ++ g :: post ∧ g.1 = l ∧ v ∈ g.2
          ∧ ∀ g' ∈ pre, v ∉ g'.2)
    ∧ (p.classify v = Bucket.other ∨ ∃ g ∈ p.groups, p.classify v = Bucket.named g.1) :=
  ⟨classifyGroups_other v p.groups,
   fun l => classifyGroups_named v l p.groups,
   classifyGroups_covers v p.groups⟩

/-- A via run is the range of its bands, paired with the bundle identity. -/
theorem viaSeq_eq (idx : Nat) :
    ∀ n k, viaSeq idx k n =
      (List.range n).map (fun j => (PathElem.via idx (k + j), k + j)) := by
  intro n
  induction n with
  | zero => intro k; simp [viaSeq]
  | succ m ih =>
    intro k
    rw [viaSeq, ih (k + 1), List.range_succ_eq_map]
    simp only [List.map_cons, List.map_map, Nat.add_zero]
    refine congrArg _ ?_
    refine List.map_congr_left ?_
    intro j _
    have harith : k + 1 + j = k + (j + 1) := by omega
    simp [Function.comp, harith]

/-- The band sequence of a synthesized path tail steps by exactly one from
`k` up to the target band. -/
theorem pathTail_chain (idx : Nat) (tgt : String) :
    ∀ n k t, t = k + n →
      List.Chain' (fun x y => y.2 = x.2 + 1)
          (viaSeq idx k n ++ [(PathElem.real tgt, t)])
      ∧ (viaSeq idx k n ++ [(PathElem.real tgt, t)]).head?.map Prod.snd = some k := by
  intro n
  induction n with
  | zero =>
    intro k t h
    subst h
    simp [viaSeq]
  | succ m ih =>
    intro k t h
    obtain ⟨ihc, ihh⟩ := ih (k + 1) t (by omega)
    rw [viaSeq, List.cons_append]
    constructor
    · rw [List.chain'_cons']
      refine ⟨?_, ihc⟩
      intro b hb
      rw [Option.mem_def] at hb
      rw [hb] at ihh
      simp only [Option.map_some'] at ihh
      exact Option.some.inj ihh
    · simp

/-- C5 (amended). For every bundle with no explicit waypoints whose target
band index exceeds its source band index by more than one, resolution
succeeds and synthesizes exactly one passthrough node per skipped band, each
named by the pair (bundle index, skipped band index); consecutive path
nodes sit in consecutive bands, the path runs from the real source node in
its band to the real target node in its band, and passthrough nodes of
distinct bundles never collide. A bundle whose target band is not after its
source band is instead rejected as a routing conflict. -/
theorem waypoint_synthesis (ord : List (List String)) (idx idx' : Nat) (b : Bundle)
    (s t : Nat) (hwp : b.waypoints = []) (hs : bandOf ord b.source = some s)
    (ht : bandOf ord b.target = some t) (hskip : s + 1 < t) :
    ∃ path, bundlePath ord idx b = Except.ok path
      ∧ path.filterMap viaOf = (skippedBands s t).map (fun k => (idx, k))
      ∧ List.Chain' (fun x y => y.2 = x.2 + 1) path
      ∧ path.head? = some (PathElem.real b.source, s)
      ∧ path.getLast? = some (PathElem.real b.target, t)
      ∧ (idx ≠ idx' → ∀ k k', PathElem.via idx k ≠ PathElem.via idx' k') := by
  refine ⟨(PathElem.real b.source, s) :: pathTail idx b.target t (s + 1),
    ?_, ?_, ?_, ?_, ?_, ?_⟩
  · unfold bundlePath
    rw [hwp]
    simp only [hs, ht]
    rw [if_pos (by omega : s < t)]
  · rw [pathTail, viaSeq_eq]
    have hmap : ∀ l : List Nat,
        List.filterMap viaOf (l.map (fun j => (PathElem.via idx (s + 1 + j), s + 1 + j))) =
          l.map (fun j => ((idx : Nat), s + 1 + j)) := by
      intro l
      induction l with
      | nil => rfl
      | cons x xs ihx =>
        simp only [List.map_cons, List.filterMap_cons, viaOf]
        rw [ihx]
    simp only [List.filterMap_cons, List.filterMap_append, viaOf, skippedBands,
      List.map_map, Function.comp]
    rw [show t - s - 1 = t - (s + 1) from by omega]
    rw [hmap]
    simp
  · rw [pathTail]
    obtain ⟨hc, hh⟩ := pathTail_chain idx b.target (t - (s + 1)) (s + 1) t (by omega)
    rw [List.chain'_cons']
    refine ⟨?_, hc⟩
    intro x hx
    rw [Option.mem_def] at hx
    rw [hx] at hh
    simp only [Option.map_some'] at hh
    exact Option.some.inj hh
  · rfl
  · rw [pathTail]
    rw [show (PathElem.real b.source, s) :: (viaSeq idx (s + 1) (t - (s + 1)) ++
        [(PathElem.real b.target, t)]) = ((PathElem.real b.source, s) ::
        viaSeq idx (s + 1) (t - (s + 1))) ++ [(PathElem.real b.target, t)] from rfl]
    exact List.getLast?_concat _
  · intro hne k k' hcontra
    cases hcontra
    exact hne rfl

/-- C5 counterexample: a no-waypoint bundle from band 2 back to band 0 has
band distance 2 in absolute value, yet no passthrough nodes are synthesized:
path resolution reports a routing conflict and the weave aborts. -/
theorem waypoint_synthesis_counterexample :
    bandOf [["A"], [], ["B"]] "B" = some 2
    ∧ bandOf [["A"], [], ["B"]] "A" = some 0
    ∧ bundlePath [["A"], [], ["B"]] 0 ⟨"B", "A", [], none⟩ =
        Except.error "routing conflict: target band not after source band"
    ∧ weave cexRevSdd cexData =
        Except.error "configuration error: bundle path conflicts with the declared ordering" :=
  ⟨by decide, by decide, by decide, by decide⟩

/-- Witness for C5 (amended) at the concrete band-skipping bundle. -/
theorem waypoint_synthesis_witness :
    (⟨"A", "B", [], none⟩ : Bundle).waypoints = []
    ∧ bandOf [["A"], [], ["B"]] "A" = some 0
    ∧ bandOf [["A"], [], ["B"]] "B" = some 2
    ∧ 0 + 1 < 2
    ∧ ∃ path, bundlePath [["A"], [], ["B"]] 0 ⟨"A", "B", [], none⟩ = Except.ok path
        ∧ path.filterMap viaOf = (skippedBands 0 2).map (fun k => ((0 : Nat), k))
        ∧ List.Chain' (fun x y => y.2 = x.2 + 1) path
        ∧ path.head? = some (PathElem.real "A", 0)
        ∧ path.getLast? = some (PathElem.real "B", 2)
        ∧ ((0 : Nat) ≠ 1 → ∀ k k', PathElem.via 0 k ≠ PathElem.via 1 k') :=
  ⟨rfl, by decide, by decide, by decide,
    waypoint_synthesis [["A"], [], ["B"]] 0 1 ⟨"A", "B", [], none⟩ 0 2 rfl
      (by decide) (by decide) (by decide)⟩

/-- Duplicate detection agrees with the no-duplicates predicate. -/
theorem hasDupB_eq_false_iff : ∀ l : List String, hasDupB l = false ↔ l.Nodup := by
  intro l
  induction l with
  | nil => simp [hasDupB]
  | cons x xs ih =>
    constructor
    · intro h
      rw [hasDupB, Bool.or_eq_false_iff] at h
      obtain ⟨ha, hd⟩ := h
      rw [List.nodup_cons]
      refine ⟨?_, ih.1 hd⟩
      intro hx
      have ht : (xs.any fun y => decide (x = y)) = true :=
        List.any_eq_true.2 ⟨x, hx, by simp⟩
      rw [ht] at ha
      cases ha
    · intro h
      rw [List.nodup_cons] at h
      obtain ⟨hx, hd⟩ := h
      rw [hasDupB, Bool.or_eq_false_iff]
      refine ⟨?_, ih.2 hd⟩
      rw [List.any_eq_false]
      intro y hy
      simp only [decide_eq_true_eq]
      intro he
      rw [he] at hx
      exact hx hy

/-- The unknown-bundle-name check passes exactly when every name a bundle
references is in the node mapping. -/
theorem unknownBundleNames_false_iff (sdd : SankeyDefinition) :
    unknownBundleNames sdd = false ↔
      ∀ b ∈ sdd.bundles, ∀ n ∈ b.source :: (b.waypoints ++ [b.target]),
        lookupNode sdd n ≠ none := by
  unfold unknownBundleNames
  rw [List.any_eq_false]
  constructor
  · intro h b hb n hn
    have hbb := h b hb
    rw [Bool.not_eq_true, List.any_eq_false] at hbb
    have hnn := hbb n hn
    intro he
    exact hnn (Option.isNone_iff_eq_none.2 he)
  · intro h b hb
    rw [Bool.not_eq_true, List.any_eq_false]
    intro n hn hisnone
    exact h b hb n hn (Option.isNone_iff_eq_none.1 hisnone)

/-- The unknown-ordering-name check passes exactly when every name in the
ordering is in the node mapping. -/
theorem unknownOrderingNames_false_iff (sdd : SankeyDefinition) :
    unknownOrderingNames sdd = false ↔
      ∀ band ∈ sdd.ordering, ∀ n ∈ band, lookupNode sdd n ≠ none := by
  unfold unknownOrderingNames
  rw [List.any_eq_false]
  constructor
  · intro h band hband n hn
    have hbb := h band hband
    rw [Bool.not_eq_true, List.any_eq_false] at hbb
    have hnn := hbb n hn
    intro he
    exact hnn (Option.isNone_iff_eq_none.2 he)
  · intro h band hband
    rw [Bool.not_eq_true, List.any_eq_false]
    intro n hn hisnone
    exact h band hband n hn (Option.isNone_iff_eq_none.1 hisnone)

/-- The duplicate-label check passes exactly when every declared partition
has pairwise distinct bucket labels. -/
theorem dupPartitionLabels_false_iff (sdd : SankeyDefinition) :
    dupPartitionLabels sdd = false ↔
      ∀ pr ∈ sdd.nodes, ∀ p, pr.2.partition = some p →
        (p.groups.map (fun g => g.1)).Nodup := by
  unfold dupPartitionLabels
  rw [List.any_eq_false]
  constructor
  · intro h pr hpr p hp
    have := h pr hpr
    rw [hp] at this
    simpa [hasDupB_eq_false_iff] using this
  · intro h pr hpr
    cases hp : pr.2.partition with
    | none => simp
    | some p =>
      simpa [hasDupB_eq_false_iff] using h pr hpr p hp

/-- The path check passes exactly when every bundle's path resolves. -/
theorem badPaths_false_iff (sdd : SankeyDefinition) :
    badPaths sdd = false ↔
      ∀ pr ∈ withIdx 0 sdd.bundles, ∃ path,
        bundlePath sdd.ordering pr.1 pr.2 = Except.ok path := by
  unfold badPaths
  rw [List.any_eq_false]
  constructor
  · intro h pr hpr
    have := h pr hpr
    cases hb : bundlePath sdd.ordering pr.1 pr.2 with
    | error e => rw [hb] at this; simp at this
    | ok path => exact ⟨path, rfl⟩
  · intro h pr hpr
    obtain ⟨path, hp⟩ := h pr hpr
    rw [hp]
    simp

/-- The selector-column check passes exactly when every predicate selector
references a joined dimension column. -/
theorem missingSelectorColumns_false_iff (sdd : SankeyDefinition) (d : Dataset) :
    missingSelectorColumns sdd d = false ↔
      ∀ pr ∈ sdd.nodes, ∀ a v, pr.2.selection = Selector.query a v →
        hasDimColumn d a = true := by
  unfold missingSelectorColumns
  rw [List.any_eq_false]
  constructor
  · intro h pr hpr a v hav
    have := h pr hpr
    rw [hav] at this
    simpa using this
  · intro h pr hpr
    cases hs : pr.2.selection with
    | explicitList ids => simp
    | query a v =>
      simpa using h pr hpr a v hs

/-- The flow-filter check passes exactly when every filter references a
flow-table attribute. -/
theorem badFlowQueries_false_iff (sdd : SankeyDefinition) :
    badFlowQueries sdd = false ↔
      ∀ b ∈ sdd.bundles, ∀ qa, b.flowQuery = some qa →
        qa.1 = "material" ∨ qa.1 = "type" := by
  unfold badFlowQueries
  rw [List.any_eq_false]
  constructor
  · intro h b hb qa hqa
    have := h b hb
    rw [hqa] at this
    exact or_iff_not_imp_left.2 (by simpa using this)
  · intro h b hb
    cases hq : b.flowQuery with
    | none => simp
    | some qa =>
      simpa using or_iff_not_imp_left.1 (h b hb qa hq)

/-- The configuration check passes exactly when every individual check does. -/
theorem checkConfig_eq_none_iff (sdd : SankeyDefinition) (d : Dataset) :
    checkConfig sdd d = none ↔
      (unknownBundleNames sdd = false ∧ unknownOrderingNames sdd = false
        ∧ dupPartitionLabels sdd = false ∧ badPaths sdd = false
        ∧ missingSelectorColumns sdd d = false ∧ badFlowQueries sdd = false) := by
  by_cases h1 : unknownBundleNames sdd <;>
    by_cases h2 : unknownOrderingNames sdd <;>
      by_cases h3 : dupPartitionLabels sdd <;>
        by_cases h4 : badPaths sdd <;>
          by_cases h5 : missingSelectorColumns sdd d <;>
            by_cases h6 : badFlowQueries sdd <;>
              simp [checkConfig, h1, h2, h3, h4, h5, h6]

/-- C6. A weave call succeeds exactly when no configuration error (unknown
node name in a bundle or the ordering, duplicate partition bucket labels, a
bundle path incompatible with the declared ordering) and no data error (a
predicate referencing an absent column) is present; since well-formedness
makes no mention of empty selectors, unmatched records or "(Other)" values,
those coverage conditions never abort a call and are only accumulated in
the diagnostics returned with the successful Output Graph. -/
theorem weave_error_taxonomy (sdd : SankeyDefinition) (d : Dataset) :
    (∃ g, weave sdd d = Except.ok g) ↔ WellFormed sdd d := by
  have h1 : (∃ g, weave sdd d = Except.ok g) ↔ checkConfig sdd d = none := by
    unfold weave
    cases hc : checkConfig sdd d with
    | some e => simp
    | none => simp
  rw [h1, checkConfig_eq_none_iff, unknownBundleNames_false_iff,
    unknownOrderingNames_false_iff, dupPartitionLabels_false_iff, badPaths_false_iff,
    missingSelectorColumns_false_iff, badFlowQueries_false_iff]
  exact Iff.rfl

/-- Every passthrough node of a via run records its own band. -/
theorem viaSeq_agrees (ord : List (List String)) (idx : Nat) :
    ∀ n k, ∀ pr ∈ viaSeq idx k n, elemBandAgrees ord pr := by
  intro n
  induction n with
  | zero => intro k pr hpr; cases hpr
  | succ m ih =>
    intro k pr hpr
    rw [viaSeq] at hpr
    rcases List.mem_cons.1 hpr with rfl | hm
    · exact rfl
    · exact ih (k + 1) pr hm

/-- Every element of a synthesized path tail agrees with its band, provided
the target really sits in band `t`. -/
theorem pathTail_agrees (ord : List (List String)) (idx : Nat) (tgt : String)
    (t k : Nat) (ht : bandOf ord tgt = some t) :
    ∀ pr ∈ pathTail idx tgt t k, elemBandAgrees ord pr := by
  intro pr hpr
  rw [pathTail] at hpr
  rcases List.mem_append.1 hpr with hm | hm
  · exact viaSeq_agrees ord idx (t - k) k pr hm
  · rw [List.mem_singleton] at hm
    subst hm
    exact ht

/-- Every element of an explicit waypoint path agrees with its band. -/
theorem realPath_agrees (ord : List (List String)) :
    ∀ names p, realPath ord names = Except.ok p →
      ∀ pr ∈ p, elemBandAgrees ord pr := by
  intro names
  induction names with
  | nil =>
    intro p hp pr hpr
    cases hp
    cases hpr
  | cons n ns ih =>
    intro p hp pr hpr
    rw [realPath] at hp
    cases hb : bandOf ord n with
    | none => rw [hb] at hp; cases hp
    | some b =>
      rw [hb] at hp
      cases hrest : realPath ord ns with
      | error e => rw [hrest] at hp; cases hp
      | ok rest =>
        rw [hrest] at hp
        cases hp
        rcases List.mem_cons.1 hpr with rfl | hm
        · exact hb
        · exact ih rest hrest pr hm

/-- A path passing the strictly-increasing check has strictly increasing
bands between consecutive elements. -/
theorem strictlyIncreasing_chain :
    ∀ l : List (PathElem × Nat), strictlyIncreasing l = true →
      List.Chain' (fun x y => x.2 < y.2) l := by
  intro l
  induction l with
  | nil => intro _; exact List.chain'_nil
  | cons x rest ih =>
    intro h
    cases rest with
    | nil => simp
    | cons y rest2 =>
      rw [strictlyIncreasing, Bool.and_eq_true] at h
      obtain ⟨hxy, hrest⟩ := h
      rw [List.chain'_cons]
      exact ⟨by simpa using hxy, ih hrest⟩

/-- A resolved bundle path has strictly increasing bands and every element
agrees with its band. -/
theorem bundlePath_ok_props (ord : List (List String)) (idx : Nat) (b : Bundle)
    (path : List (PathElem × Nat)) (h : bundlePath ord idx b = Except.ok path) :
    List.Chain' (fun x y => x.2 < y.2) path ∧ ∀ pr ∈ path, elemBandAgrees ord pr := by
  unfold bundlePath at h
  cases hwp : b.waypoints with
  | nil =>
    rw [hwp] at h
    dsimp only at h
    cases hs : bandOf ord b.source with
    | none => rw [hs] at h; cases hb : bandOf ord b.target <;> rw [hb] at h <;> cases h
    | some s =>
      rw [hs] at h
      cases hb : bandOf ord b.target with
      | none => rw [hb] at h; cases h
      | some t =>
        rw [hb] at h
        dsimp only at h
        by_cases hst : s < t
        · rw [if_pos hst] at h
          cases h
          constructor
          · obtain ⟨hc, hh⟩ := pathTail_chain idx b.target (t - (s + 1)) (s + 1) t (by omega)
            rw [pathTail]
            rw [List.chain'_cons']
            refine ⟨?_, hc.imp ?_⟩
            · intro pr hpr
              rw [Option.mem_def] at hpr
              rw [hpr] at hh
              simp only [Option.map_some'] at hh
              have := Option.some.inj hh
              omega
            · intro a c hac
              omega
          · intro pr hpr
            rcases List.mem_cons.1 hpr with rfl | hm
            · exact hs
            · exact pathTail_agrees ord idx b.target t (s + 1) hb pr hm
        · rw [if_neg hst] at h
          cases h
  | cons w ws =>
    rw [hwp] at h
    dsimp only at h
    cases hrp : realPath ord (b.source :: (b.waypoints ++ [b.target])) with
    | error e =>
      rw [hwp] at hrp
      rw [hrp] at h
      cases h
    | ok p =>
      rw [hwp] at hrp
      rw [hrp] at h
      dsimp only at h
      by_cases hsi : strictlyIncreasing p
      · rw [if_pos hsi] at h
        cases h
        exact ⟨strictlyIncreasing_chain path hsi,
          realPath_agrees ord _ path (hwp ▸ hrp) ⟩
      · rw [if_neg hsi] at h
        cases h

/-- The internal node an agreeing path element denotes sits in its band. -/
theorem nodeIdFor_band (sdd : SankeyDefinition) (d : Dataset) (f : FlowRecord)
    (ord : List (List String)) (role : Role) (pr : PathElem × Nat)
    (hpr : elemBandAgrees ord pr) :
    nodeBand ord (nodeIdFor sdd d f role pr) = some pr.2 := by
  obtain ⟨e, k⟩ := pr
  cases e with
  | real n => exact hpr
  | via i j =>
    have hj : j = k := hpr
    simp [nodeIdFor, nodeBand, hj]

/-- The node sequence of the non-initial path positions maps to the bands of
those positions. -/
theorem midNodes_bands (sdd : SankeyDefinition) (d : Dataset) (f : FlowRecord)
    (ord : List (List String)) :
    ∀ l : List (PathElem × Nat), (∀ pr ∈ l, elemBandAgrees ord pr) →
      (midNodes sdd d f l).map (nodeBand ord) = l.map (fun pr => some pr.2) := by
  intro l
  induction l with
  | nil => intro _; rfl
  | cons x rest ih =>
    intro h
    cases rest with
    | nil =>
      simp only [midNodes, List.map_cons, List.map_nil]
      rw [nodeIdFor_band sdd d f ord Role.tgt x (h x (by simp))]
    | cons y rest2 =>
      simp only [midNodes, List.map_cons]
      rw [nodeIdFor_band sdd d f ord Role.mid x (h x (by simp))]
      have := ih (fun pr hpr => h pr (List.mem_cons_of_mem _ hpr))
      simp only [List.map_cons] at this
      rw [this]

/-- The node sequence of a path maps to the bands of the path. -/
theorem pathNodeIds_bands (sdd : SankeyDefinition) (d : Dataset) (f : FlowRecord)
    (ord : List (List String)) (l : List (PathElem × Nat))
    (h : ∀ pr ∈ l, elemBandAgrees ord pr) :
    (pathNodeIds sdd d f l).map (nodeBand ord) = l.map (fun pr => some pr.2) := by
  cases l with
  | nil => rfl
  | cons first rest =>
    simp only [pathNodeIds, List.map_cons]
    rw [nodeIdFor_band sdd d f ord Role.src first (h first (by simp))]
    have := midNodes_bands sdd d f ord rest (fun pr hpr => h pr (List.mem_cons_of_mem _ hpr))
    rw [this]

/-- A node sequence whose bands mirror a strictly increasing path is itself
a chain of strictly left-to-right hops. -/
theorem chain_bandLt_of_bands (ord : List (List String)) (ns : List NodeId)
    (l : List (PathElem × Nat)) (hmap : ns.map (nodeBand ord) = l.map (fun pr => some pr.2))
    (hchain : List.Chain' (fun x y => x.2 < y.2) l) :
    List.Chain' (fun a b => ∃ x y, nodeBand ord a = some x ∧ nodeBand ord b = some y ∧ x < y)
      ns := by
  have h1 : List.Chain'
      (fun ox oy : Option Nat => ∃ x y, ox = some x ∧ oy = some y ∧ x < y)
      (l.map (fun pr => some pr.2)) := by
    rw [List.chain'_map]
    exact hchain.imp (fun a b hab => ⟨a.2, b.2, rfl, rfl, hab⟩)
  rw [← hmap] at h1
  rw [List.chain'_map] at h1
  exact h1

/-- Accumulating a strictly left-to-right hop keeps every link of the table
strictly left to right. -/
theorem addLink_ordered (ord : List (List String)) (s t : NodeId) (m : String) (v : Int)
    (hkey : ∃ a b, nodeBand ord s = some a ∧ nodeBand ord t = some b ∧ a < b) :
    ∀ L : List Link, (∀ x ∈ L, LinkOrdered ord x) →
      ∀ x ∈ addLink L s t m v, LinkOrdered ord x := by
  intro L
  induction L with
  | nil =>
    intro _ x hx
    rw [addLink, List.mem_singleton] at hx
    subst hx
    exact hkey
  | cons l ls ih =>
    intro hL x hx
    rw [addLink] at hx
    by_cases hc : l.source = s ∧ l.target = t ∧ l.material = m
    · rw [if_pos hc] at hx
      rcases List.mem_cons.1 hx with rfl | hm
      · exact hL l (by simp)
      · exact hL x (List.mem_cons_of_mem _ hm)
    · rw [if_neg hc] at hx
      rcases List.mem_cons.1 hx with rfl | hm
      · exact hL x (by simp)
      · exact ih (fun y hy => hL y (List.mem_cons_of_mem _ hy)) x hm

/-- Routing a record along a chain of strictly left-to-right nodes keeps
every link of the table strictly left to right. -/
theorem addPath_ordered (ord : List (List String)) (m : String) (v : Int) :
    ∀ ns : List NodeId,
      List.Chain' (fun a b => ∃ x y, nodeBand ord a = some x ∧ nodeBand ord b = some y ∧ x < y)
        ns →
      ∀ L : List Link, (∀ x ∈ L, LinkOrdered ord x) →
        ∀ x ∈ addPath L ns m v, LinkOrdered ord x := by
  intro ns
  induction ns with
  | nil => intro _ L hL x hx; exact hL x hx
  | cons a rest ih =>
    intro hchain L hL x hx
    cases rest with
    | nil => exact hL x hx
    | cons b rest2 =>
      rw [List.chain'_cons] at hchain
      obtain ⟨hab, hrest⟩ := hchain
      rw [addPath] at hx
      exact ih hrest (addLink L a b m v)
        (addLink_ordered ord a b m v hab L hL) x hx

/-- An index found by bundle matching names an actual bundle, indexed from
the given offset. -/
theorem withIdx_mem :
    ∀ (bs : List Bundle) (i j : Nat) (b : Bundle), bs.get? j = some b →
      (i + j, b) ∈ withIdx i bs := by
  intro bs
  induction bs with
  | nil => intro i j b h; cases h
  | cons b0 rest ih =>
    intro i j b h
    cases j with
    | zero =>
      cases h
      simp [withIdx]
    | succ j2 =>
      have := ih (i + 1) j2 b h
      rw [withIdx]
      rw [show i + (j2 + 1) = (i + 1) + j2 from by omega]
      exact List.mem_cons_of_mem _ this

/-- Under a passing path check, every resolved path used for routing has
strictly increasing bands and band agreement. -/
theorem pathOf_props (sdd : SankeyDefinition) (hbp : badPaths sdd = false) (idx : Nat) :
    List.Chain' (fun x y => x.2 < y.2) (pathOf sdd idx)
    ∧ ∀ pr ∈ pathOf sdd idx, elemBandAgrees sdd.ordering pr := by
  unfold pathOf
  cases hg : sdd.bundles.get? idx with
  | none => exact ⟨List.chain'_nil, by intro pr hpr; cases hpr⟩
  | some b =>
    have hmem : (idx, b) ∈ withIdx 0 sdd.bundles := by
      have := withIdx_mem sdd.bundles 0 idx b hg
      simpa using this
    obtain ⟨path, hpath⟩ := (badPaths_false_iff sdd).1 hbp (idx, b) hmem
    simp only at hpath
    dsimp only
    rw [hpath]
    exact bundlePath_ok_props sdd.ordering idx b path hpath

/-- Routing preserves the strictly-left-to-right property of the link table. -/
theorem routeAll_ordered (sdd : SankeyDefinition) (d : Dataset)
    (hbp : badPaths sdd = false) :
    ∀ (flows : List FlowRecord) (st : RouteState),
      (∀ x ∈ st.links, LinkOrdered sdd.ordering x) →
      ∀ x ∈ (routeAll sdd d flows st).links, LinkOrdered sdd.ordering x := by
  intro flows
  induction flows with
  | nil => intro st h x hx; exact h x hx
  | cons f fs ih =>
    intro st h x hx
    have hstep : routeAll sdd d (f :: fs) st = routeAll sdd d fs (routeRecord sdd d st f) :=
      rfl
    rw [hstep] at hx
    refine ih (routeRecord sdd d st f) ?_ x hx
    intro y hy
    unfold routeRecord at hy
    cases hm : matchBundle sdd d f with
    | none =>
      rw [hm] at hy
      exact h y hy
    | some idx =>
      rw [hm] at hy
      simp only at hy
      obtain ⟨hchain, hagree⟩ := pathOf_props sdd hbp idx
      have hbands := pathNodeIds_bands sdd d f sdd.ordering (pathOf sdd idx) hagree
      have hnchain := chain_bandLt_of_bands sdd.ordering _ _ hbands hchain
      exact addPath_ordered sdd.ordering f.material f.value _ hnchain st.links h y hy

/-- C4. In every successfully woven output graph, every link runs strictly
left to right: the band of its originating node is strictly less than the
band of its destination node. -/
theorem band_ordering (sdd : SankeyDefinition) (d : Dataset) (g : OutputGraph)
    (h : weave sdd d = Except.ok g) :
    ∀ l ∈ g.links, ∃ a b, nodeBand sdd.ordering l.source = some a
      ∧ nodeBand sdd.ordering l.target = some b ∧ a < b := by
  have hg : g = assemble sdd d ∧ checkConfig sdd d = none := by
    unfold weave at h
    cases hc : checkConfig sdd d with
    | some e => rw [hc] at h; cases h
    | none => rw [hc] at h; cases h; exact ⟨rfl, rfl⟩
  obtain ⟨hgg, hcc⟩ := hg
  subst hgg
  have hbp : badPaths sdd = false := ((checkConfig_eq_none_iff sdd d).1 hcc).2.2.2.1
  intro l hl
  exact routeAll_ordered sdd d hbp d.flows ⟨[], 0, 0, 0⟩ (by intro x hx; cases hx) l hl

/-- Witness for C4 on the tutorial scenario's first link. -/
theorem band_ordering_witness :
    weave exSddGender exData = Except.ok (assemble exSddGender exData)
    ∧ (⟨NodeId.real "farms" Bucket.whole, NodeId.real "customers" (Bucket.named "Men"),
          "fruit", 10⟩ : Link) ∈ (assemble exSddGender exData).links
    ∧ ∃ a b, nodeBand exSddGender.ordering (NodeId.real "farms" Bucket.whole) = some a
        ∧ nodeBand exSddGender.ordering (NodeId.real "customers" (Bucket.named "Men")) = some b
        ∧ a < b := by
  have h : weave exSddGender exData = Except.ok (assemble exSddGender exData) := by decide
  have hm : (⟨NodeId.real "farms" Bucket.whole, NodeId.real "customers" (Bucket.named "Men"),
      "fruit", 10⟩ : Link) ∈ (assemble exSddGender exData).links := by decide
  exact ⟨h, hm, band_ordering exSddGender exData (assemble exSddGender exData) h _ hm⟩

/-- Pointwise equal functions give equal any-scans. -/
theorem anyCongr {α : Type} (l : List α) (f g : α → Bool) (h : ∀ x ∈ l, f x = g x) :
    l.any f = l.any g := by
  induction l with
  | nil => rfl
  | cons x rest ih =>
    simp only [List.any_cons]
    rw [h x (by simp), ih (fun y hy => h y (List.mem_cons_of_mem _ hy))]

/-- Pointwise equal functions give equal flat maps. -/
theorem flatMapCongr {α β : Type} (l : List α) (f g : α → List β)
    (h : ∀ x ∈ l, f x = g x) : l.flatMap f = l.flatMap g := by
  induction l with
  | nil => rfl
  | cons x rest ih =>
    simp only [List.flatMap_cons]
    rw [h x (by simp), ih (fun y hy => h y (List.mem_cons_of_mem _ hy))]

/-- Pointwise equal step functions give equal folds. -/
theorem foldlCongr {α β : Type} :
    ∀ (l : List α) (f g : β → α → β) (init : β),
      (∀ st, ∀ x ∈ l, f st x = g st x) → l.foldl f init = l.foldl g init := by
  intro l
  induction l with
  | nil => intro f g init _; rfl
  | cons x rest ih =>
    intro f g init h
    simp only [List.foldl_cons]
    rw [h init x (by simp)]
    exact ih f g (g init x) (fun st y hy => h st y (List.mem_cons_of_mem _ hy))

/-- Setting a partition rewrites the lookup result pointwise. -/
theorem lookupIn_setPartition :
    ∀ (l : List (String × ProcessGroup)) (name : String) (p : Partition) (n : String),
      lookupIn (l.map (fun pr =>
          if pr.1 = name then (pr.1, { pr.2 with partition := some p }) else pr)) n =
        (lookupIn l n).map
          (fun pg => if n = name then { pg with partition := some p } else pg) := by
  intro l name p n
  induction l with
  | nil => rfl
  | cons x rest ih =>
    obtain ⟨m, pg⟩ := x
    by_cases hm : m = name
    · subst hm
      simp only [List.map_cons, eq_self_iff_true, if_true]
      rw [lookupIn, lookupIn]
      by_cases hn : n = m
      · rw [if_pos hn, if_pos hn, Option.map_some', if_pos hn]
      · rw [if_neg hn, if_neg hn, ih]
    · simp only [List.map_cons, if_neg hm]
      rw [lookupIn, lookupIn]
      by_cases hn : n = m
      · rw [if_pos hn, if_pos hn, Option.map_some',
          if_neg (fun he : n = name => hm (hn ▸ he))]
      · rw [if_neg hn, if_neg hn, ih]

/-- Looking up a node after setting one node's partition. -/
theorem lookupNode_setPartition (sdd : SankeyDefinition) (name : String) (p : Partition)
    (n : String) :
    lookupNode (sdd.setPartition name p) n =
      (lookupNode sdd n).map
        (fun pg => if n = name then { pg with partition := some p } else pg) :=
  lookupIn_setPartition sdd.nodes name p n

/-- Selector resolution ignores partitions. -/
theorem resolvedOf_setPartition (sdd : SankeyDefinition) (d : Dataset) (name : String)
    (p : Partition) (n : String) :
    resolvedOf (sdd.setPartition name p) d n = resolvedOf sdd d n := by
  unfold resolvedOf
  rw [lookupNode_setPartition]
  cases lookupNode sdd n with
  | none => rfl
  | some pg =>
    by_cases hn : n = name
    · simp [hn]
    · simp [hn]

/-- Bundle matching ignores partitions. -/
theorem bundleMatches_setPartition (sdd : SankeyDefinition) (d : Dataset) (name : String)
    (p : Partition) (f : FlowRecord) (b : Bundle) :
    bundleMatches (sdd.setPartition name p) d f b = bundleMatches sdd d f b := by
  unfold bundleMatches
  rw [resolvedOf_setPartition, resolvedOf_setPartition]

/-- First-bundle matching ignores partitions. -/
theorem matchBundle_setPartition (sdd : SankeyDefinition) (d : Dataset) (name : String)
    (p : Partition) (f : FlowRecord) :
    matchBundle (sdd.setPartition name p) d f = matchBundle sdd d f := by
  unfold matchBundle
  have hb : (sdd.setPartition name p).bundles = sdd.bundles := rfl
  rw [hb]
  have : ∀ bs : List Bundle,
      matchBundleAux (sdd.setPartition name p) d f bs = matchBundleAux sdd d f bs := by
    intro bs
    induction bs with
    | nil => rfl
    | cons b rest ih =>
      rw [matchBundleAux, matchBundleAux, bundleMatches_setPartition, ih]
  exact this sdd.bundles

/-- Bucket assignment after setting one node's partition: unchanged away
from that node, the new partition's bucket at it. -/
theorem bucketFor_setPartition (sdd : SankeyDefinition) (d : Dataset) (name : String)
    (p : Partition) (f : FlowRecord) (role : Role) (n : String) :
    bucketFor (sdd.setPartition name p) d f role n =
      if n = name then
        (match lookupNode sdd n with
         | none => Bucket.whole
         | some _ => bucketOfPartition d f role p)
      else bucketFor sdd d f role n := by
  unfold bucketFor
  rw [lookupNode_setPartition]
  cases lookupNode sdd n with
  | none => by_cases hn : n = name <;> simp [hn]
  | some pg =>
    by_cases hn : n = name
    · simp [hn]
    · simp [hn]

/-- The two weaves being compared assign equal buckets everywhere, provided
the two partitions agree on every flow record. -/
theorem bucketFor_congr (sdd : SankeyDefinition) (d : Dataset) (name : String)
    (p q : Partition) (f : FlowRecord)
    (hpq : ∀ role, bucketOfPartition d f role p = bucketOfPartition d f role q)
    (role : Role) (n : String) :
    bucketFor (sdd.setPartition name p) d f role n =
      bucketFor (sdd.setPartition name q) d f role n := by
  rw [bucketFor_setPartition, bucketFor_setPartition]
  by_cases hn : n = name
  · rw [if_pos hn, if_pos hn]
    cases lookupNode sdd n with
    | none => rfl
    | some pg => exact hpq role
  · rw [if_neg hn, if_neg hn]

/-- Node identities along a path agree under bucket agreement. -/
theorem pathNodeIds_congr (sdd : SankeyDefinition) (d : Dataset) (name : String)
    (p q : Partition) (f : FlowRecord)
    (hpq : ∀ role, bucketOfPartition d f role p = bucketOfPartition d f role q) :
    ∀ l : List (PathElem × Nat),
      pathNodeIds (sdd.setPartition name p) d f l =
        pathNodeIds (sdd.setPartition name q) d f l := by
  have hfor : ∀ role pr, nodeIdFor (sdd.setPartition name p) d f role pr =
      nodeIdFor (sdd.setPartition name q) d f role pr := by
    intro role pr
    obtain ⟨e, k⟩ := pr
    cases e with
    | via i j => rfl
    | real n =>
      unfold nodeIdFor
      dsimp only
      rw [bucketFor_congr sdd d name p q f hpq role n]
  have hmid : ∀ l, midNodes (sdd.setPartition name p) d f l =
      midNodes (sdd.setPartition name q) d f l := by
    intro l
    induction l with
    | nil => rfl
    | cons x rest ih =>
      cases rest with
      | nil => rw [midNodes, midNodes, hfor]
      | cons y rest2 => rw [midNodes, midNodes, hfor, ih]
  intro l
  cases l with
  | nil => rfl
  | cons first rest => rw [pathNodeIds, pathNodeIds, hfor, hmid]

/-- Routing agrees under bucket agreement on every routed record. -/
theorem routeAll_congr (sdd : SankeyDefinition) (d : Dataset) (name : String)
    (p q : Partition)
    (h : ∀ f ∈ d.flows, ∀ role, bucketOfPartition d f role p = bucketOfPartition d f role q)
    (st : RouteState) :
    routeAll (sdd.setPartition name p) d d.flows st =
      routeAll (sdd.setPartition name q) d d.flows st := by
  unfold routeAll
  refine foldlCongr d.flows _ _ st ?_
  intro st2 f hf
  unfold routeRecord
  rw [matchBundle_setPartition, matchBundle_setPartition]
  cases matchBundle sdd d f with
  | none => rfl
  | some idx =>
    have hpath : pathOf (sdd.setPartition name p) idx = pathOf (sdd.setPartition name q) idx :=
      rfl
    simp only
    rw [hpath, pathNodeIds_congr sdd d name p q f (h f hf)]

/-- The output buckets of a node depend only on the partition's labels. -/
theorem nodeBuckets_congr (n : String) (pg : ProcessGroup) (p q : Partition)
    (hlab : p.groups.map (fun g => g.1) = q.groups.map (fun g => g.1)) :
    nodeBuckets n { pg with partition := some p } =
      nodeBuckets n { pg with partition := some q } := by
  unfold nodeBuckets
  simp only
  rw [show p.groups.map (fun g => NodeId.real n (Bucket.named g.1)) =
      (p.groups.map (fun g => g.1)).map (fun l => NodeId.real n (Bucket.named l)) from by
    rw [List.map_map]
    rfl]
  rw [show q.groups.map (fun g => NodeId.real n (Bucket.named g.1)) =
      (q.groups.map (fun g => g.1)).map (fun l => NodeId.real n (Bucket.named l)) from by
    rw [List.map_map]
    rfl]
  rw [hlab]

/-- The ordered node list agrees when the two partitions share labels. -/
theorem orderingNodes_congr (sdd : SankeyDefinition) (name : String) (p q : Partition)
    (hlab : p.groups.map (fun g => g.1) = q.groups.map (fun g => g.1)) :
    orderingNodes (sdd.setPartition name p) = orderingNodes (sdd.setPartition name q) := by
  unfold orderingNodes
  refine flatMapCongr _ _ _ ?_
  intro band _
  refine flatMapCongr _ _ _ ?_
  intro n _
  rw [lookupNode_setPartition, lookupNode_setPartition]
  cases lookupNode sdd n with
  | none => rfl
  | some pg =>
    by_cases hn : n = name
    · simp only [Option.map_some', if_pos hn]
      exact nodeBuckets_congr n pg p q hlab
    · simp only [Option.map_some', if_neg hn]

/-- Empty-selector warnings ignore partitions. -/
theorem emptySelectors_setPartition (sdd : SankeyDefinition) (d : Dataset) (name : String)
    (p : Partition) :
    emptySelectors (sdd.setPartition name p) d = emptySelectors sdd d := by
  unfold emptySelectors
  have hnodes : (sdd.setPartition name p).nodes = sdd.nodes.map (fun pr =>
      if pr.1 = name then (pr.1, { pr.2 with partition := some p }) else pr) := rfl
  rw [hnodes, List.filterMap_map]
  refine List.filterMap_congr ?_
  intro pr _
  have h1 : ((fun pr : String × ProcessGroup =>
      if resolvedOf (sdd.setPartition name p) d pr.1 = [] then some pr.1 else none) ∘
      fun pr : String × ProcessGroup =>
        if pr.1 = name then (pr.1, { pr.2 with partition := some p }) else pr) pr =
      (if resolvedOf (sdd.setPartition name p) d pr.1 = [] then some pr.1 else none) := by
    by_cases hn : pr.1 = name
    · simp [Function.comp, hn]
    · simp [Function.comp, hn]
  rw [h1, resolvedOf_setPartition]

/-- The unknown-name checks ignore partitions. -/
theorem unknownNames_setPartition (sdd : SankeyDefinition) (name : String) (p : Partition) :
    unknownBundleNames (sdd.setPartition name p) = unknownBundleNames sdd
    ∧ unknownOrderingNames (sdd.setPartition name p) = unknownOrderingNames sdd := by
  constructor
  · unfold unknownBundleNames
    refine anyCongr _ _ _ ?_
    intro b _
    refine anyCongr _ _ _ ?_
    intro n _
    rw [lookupNode_setPartition]
    cases lookupNode sdd n <;> rfl
  · unfold unknownOrderingNames
    refine anyCongr _ _ _ ?_
    intro band _
    refine anyCongr _ _ _ ?_
    intro n _
    rw [lookupNode_setPartition]
    cases lookupNode sdd n <;> rfl

/-- The duplicate-label check agrees when the two partitions share labels. -/
theorem dupPartitionLabels_congr (sdd : SankeyDefinition) (name : String) (p q : Partition)
    (hlab : p.groups.map (fun g => g.1) = q.groups.map (fun g => g.1)) :
    dupPartitionLabels (sdd.setPartition name p) =
      dupPartitionLabels (sdd.setPartition name q) := by
  unfold dupPartitionLabels
  have hp : (sdd.setPartition name p).nodes = sdd.nodes.map (fun pr =>
      if pr.1 = name then (pr.1, { pr.2 with partition := some p }) else pr) := rfl
  have hq : (sdd.setPartition name q).nodes = sdd.nodes.map (fun pr =>
      if pr.1 = name then (pr.1, { pr.2 with partition := some q }) else pr) := rfl
  rw [hp, hq, List.any_map, List.any_map]
  refine anyCongr _ _ _ ?_
  intro pr _
  by_cases hn : pr.1 = name
  · simp only [Function.comp, if_pos hn]
    rw [hlab]
  · simp only [Function.comp, if_neg hn]

/-- The selector-column check ignores partitions. -/
theorem missingSelectorColumns_setPartition (sdd : SankeyDefinition) (d : Dataset)
    (name : String) (p : Partition) :
    missingSelectorColumns (sdd.setPartition name p) d = missingSelectorColumns sdd d := by
  unfold missingSelectorColumns
  have hp : (sdd.setPartition name p).nodes = sdd.nodes.map (fun pr =>
      if pr.1 = name then (pr.1, { pr.2 with partition := some p }) else pr) := rfl
  rw [hp, List.any_map]
  refine anyCongr _ _ _ ?_
  intro pr _
  by_cases hn : pr.1 = name
  · simp [Function.comp, hn]
  · simp [Function.comp, hn]

/-- The whole configuration check agrees when the two partitions share
labels. -/
theorem checkConfig_congr (sdd : SankeyDefinition) (d : Dataset) (name : String)
    (p q : Partition)
    (hlab : p.groups.map (fun g => g.1) = q.groups.map (fun g => g.1)) :
    checkConfig (sdd.setPartition name p) d = checkConfig (sdd.setPartition name q) d := by
  unfold checkConfig
  rw [(unknownNames_setPartition sdd name p).1, (unknownNames_setPartition sdd name q).1,
    (unknownNames_setPartition sdd name p).2, (unknownNames_setPartition sdd name q).2,
    dupPartitionLabels_congr sdd name p q hlab,
    missingSelectorColumns_setPartition sdd d name p,
    missingSelectorColumns_setPartition sdd d name q]
  rfl

/-- Weaving after assigning either of two partitions with the same labels
and the same per-record buckets gives the same output graph. -/
theorem weave_setPartition_congr (sdd : SankeyDefinition) (d : Dataset) (name : String)
    (p q : Partition)
    (hlab : p.groups.map (fun g => g.1) = q.groups.map (fun g => g.1))
    (hbucket : ∀ f ∈ d.flows, ∀ role,
      bucketOfPartition d f role p = bucketOfPartition d f role q) :
    weave (sdd.setPartition name p) d = weave (sdd.setPartition name q) d := by
  unfold weave
  rw [checkConfig_congr sdd d name p q hlab]
  cases checkConfig (sdd.setPartition name q) d with
  | some e => rfl
  | none =>
    unfold assemble
    rw [routeAll_congr sdd d name p q hbucket,
      orderingNodes_congr sdd name p q hlab,
      emptySelectors_setPartition sdd d name p, emptySelectors_setPartition sdd d name q]
    rfl

/-- For a process whose sex column matches the quickstart mapping, looking
the sex up and bucketing it agrees with bucketing the process id against the
explicit name lists. -/
theorem gender_pid_eq (d : Dataset) (pid : String) (h : sexListMatch d pid) :
    (match procAttr d pid "sex" with
     | none => Bucket.other
     | some v => classifyGroups v [("Men", ["Men"]), ("Women", ["Women"])]) =
      classifyGroups pid [("Men", ["Fred", "James"]), ("Women", ["Susan", "Mary"])] := by
  obtain ⟨hm, hw⟩ := h
  by_cases h1 : pid = "Fred" ∨ pid = "James"
  · rw [hm.mpr h1]
    rcases h1 with rfl | rfl <;> decide
  · by_cases h2 : pid = "Susan" ∨ pid = "Mary"
    · rw [hw.mpr h2]
      rcases h2 with rfl | rfl <;> decide
    · push_neg at h1 h2
      have hrhs : classifyGroups pid
          [("Men", ["Fred", "James"]), ("Women", ["Susan", "Mary"])] = Bucket.other := by
        rw [classifyGroups, if_neg (by simp [h1.1, h1.2]), classifyGroups,
          if_neg (by simp [h2.1, h2.2])]
        rfl
      rw [hrhs]
      cases hv : procAttr d pid "sex" with
      | none => rfl
      | some v =>
        have hv1 : v ≠ "Men" := fun he => h1.1 ((hm.mp (he ▸ hv)).elim id
          (fun hj => absurd (hm.mp (he ▸ hv)) (by simp [h1.1, h1.2])))
        have hv2 : v ≠ "Women" := fun he => h2.1 ((hw.mp (he ▸ hv)).elim id
          (fun hj => absurd (hw.mp (he ▸ hv)) (by simp [h2.1, h2.2])))
        simp [classifyGroups, hv1, hv2]

/-- The two renderings of the customers-by-gender partition assign the same
bucket to every record at every path position. -/
theorem bucketOf_gender_eq (d : Dataset) (f : FlowRecord)
    (hs : sexListMatch d f.source) (ht : sexListMatch d f.target) (role : Role) :
    bucketOfPartition d f role byGender = bucketOfPartition d f role byGenderList := by
  cases role with
  | mid => rfl
  | src => exact gender_pid_eq d f.source hs
  | tgt => exact gender_pid_eq d f.target ht

/-- C9. For any definition and any dataset whose process dimension table
maps exactly Fred and James to sex Men and exactly Susan and Mary to sex
Women, assigning the dimension-based partition Simple(process.sex,
[Men, Women]) to a node weaves to the same output graph as assigning the
explicit-list partition Simple(process, [(Men, [Fred, James]),
(Women, [Susan, Mary])]); and a bare value string in Partition.Simple
denotes a bucket labelled by that value and matching exactly that value. -/
theorem simple_partition_equiv (sdd : SankeyDefinition) (d : Dataset) (name : String)
    (hsex : ∀ f ∈ d.flows, sexListMatch d f.source ∧ sexListMatch d f.target) :
    weave (sdd.setPartition name byGender) d = weave (sdd.setPartition name byGenderList) d
    ∧ ∀ dim v rest x,
        Partition.classify (Partition.Simple dim (SimpleEntry.val v :: rest)) x =
          if x = v then Bucket.named v
          else Partition.classify (Partition.Simple dim rest) x := by
  constructor
  · refine weave_setPartition_congr sdd d name byGender byGenderList (by decide) ?_
    intro f hf role
    exact bucketOf_gender_eq d f (hsex f hf).1 (hsex f hf).2 role
  · intro dim v rest x
    by_cases hx : x = v
    · simp [Partition.classify, Partition.Simple, classifyGroups, hx]
    · simp [Partition.classify, Partition.Simple, classifyGroups, hx]

/-- Witness for C9 on the quickstart dataset with all four customers. -/
theorem simple_partition_equiv_witness :
    (∀ f ∈ c9Data.flows, sexListMatch c9Data f.source ∧ sexListMatch c9Data f.target)
    ∧ weave (exSdd.setPartition "customers" byGender) c9Data =
        weave (exSdd.setPartition "customers" byGenderList) c9Data := by
  have hsex : ∀ f ∈ c9Data.flows,
      sexListMatch c9Data f.source ∧ sexListMatch c9Data f.target := by decide
  exact ⟨hsex, (simple_partition_equiv exSdd c9Data "customers" hsex).1⟩

/-- C3. The weave operation is deterministic: identical definition and
dataset give identical output graphs. -/
theorem weave_deterministic (sdd1 sdd2 : SankeyDefinition) (d1 d2 : Dataset)
    (hs : sdd1 = sdd2) (hd : d1 = d2) : weave sdd1 d1 = weave sdd2 d2 := by
  subst hs
  subst hd
  rfl

/-- Witness for C3 at the tutorial scenario. -/
theorem weave_deterministic_witness :
    exSddGender = exSddGender ∧ exData = exData
    ∧ weave exSddGender exData = weave exSddGender exData :=
  ⟨rfl, rfl, weave_deterministic exSddGender exSddGender exData exData rfl rfl⟩

/-- C7. A process-scoped column lookup written with the bare process prefix
fails with a missing-attribute condition, while the same column under the
source or target prefix succeeds, returning one bucket per distinct value
occurring in scope, in order of first occurrence. -/
theorem partition_lookup_asymmetry (d : Dataset) (a : String) :
    Dataset.partition d (Dim.processAttr a) =
      Except.error ("missing attribute: process." ++ a)
    ∧ (hasDimColumn d a = true →
        Dataset.partition d (Dim.sourceAttr a) =
          Except.ok
            { dimension := Dim.sourceAttr a
              groups := (dedupF (d.flows.filterMap (fun f => procAttr d f.source a))).map
                (fun v => (v, [v])) })
    ∧ (hasDimColumn d a = true →
        Dataset.partition d (Dim.targetAttr a) =
          Except.ok
            { dimension := Dim.targetAttr a
              groups := (dedupF (d.flows.filterMap (fun f => procAttr d f.target a))).map
                (fun v => (v, [v])) }) := by
  refine ⟨rfl, fun h => ?_, fun h => ?_⟩ <;> simp [Dataset.partition, h]

/-- Witness for C7 on the tutorial dataset and its organic column. -/
theorem partition_lookup_asymmetry_witness :
    hasDimColumn exData "organic" = true
    ∧ Dataset.partition exData (Dim.processAttr "organic") =
        Except.error ("missing attribute: process." ++ "organic")
    ∧ Dataset.partition exData (Dim.sourceAttr "organic") =
        Except.ok
          { dimension := Dim.sourceAttr "organic"
            groups := (dedupF (exData.flows.filterMap
                (fun f => procAttr exData f.source "organic"))).map (fun v => (v, [v])) } :=
  ⟨by decide, (partition_lookup_asymmetry exData "organic").1,
    (partition_lookup_asymmetry exData "organic").2.1 (by decide)⟩

/-- C8. On the tutorial scenario (two flows of 10 and 5, farms selected by
type, customers partitioned by sex), the weave produces exactly the links
farms to Men of 10 and farms to Women of 5, with routed total 15 equal to
the input total. -/
theorem example_scenario_links :
    (weave exSddGender exData).map (fun g => g.links) =
      Except.ok
        [⟨NodeId.real "farms" Bucket.whole, NodeId.real "customers" (Bucket.named "Men"),
            "fruit", 10⟩,
         ⟨NodeId.real "farms" Bucket.whole, NodeId.real "customers" (Bucket.named "Women"),
            "fruit", 5⟩]
    ∧ (weave exSddGender exData).map (fun g => sumLinks g.links) = Except.ok (15 : Int)
    ∧ totalInput exData = 15 :=
  ⟨by decide, by decide, by decide⟩

/-- C10. Weaving the definition before any partition is assigned yields the
customers group as a single unpartitioned bucket carrying the merged link of
value 15; assigning the gender partition to that node (the explicit-state
rendering of mutating it after construction) changes the output of the
subsequent weave call to the split links. -/
theorem partition_read_at_call_time :
    (weave exSdd exData).map (fun g => g.links) =
      Except.ok
        [⟨NodeId.real "farms" Bucket.whole, NodeId.real "customers" Bucket.whole, "fruit", 15⟩]
    ∧ (weave exSdd exData).map (fun g => g.nodes.filter (isNodeOf "customers")) =
        Except.ok [NodeId.real "customers" Bucket.whole]
    ∧ (weave (exSdd.setPartition "customers" byGender) exData).map (fun g => g.links) =
        Except.ok
          [⟨NodeId.real "farms" Bucket.whole, NodeId.real "customers" (Bucket.named "Men"),
              "fruit", 10⟩,
           ⟨NodeId.real "farms" Bucket.whole, NodeId.real "customers" (Bucket.named "Women"),
              "fruit", 5⟩]
    ∧ weave (exSdd.setPartition "customers" byGender) exData ≠ weave exSdd exData :=
  ⟨by decide, by decide, by decide, by decide⟩

end Floweaver





